import Mathlib

/-!
Verification of the iteritor library core (src/lib.rs, src/buffer.rs,
src/filtered.rs, src/breaking.rs).

Shallow embedding conventions:
* A short-circuit value (Rust: any `T : Try<Output = O, Residual = R>`,
  canonically `Result<O, R>`) is modelled by the two-variant sum `CF O R`.
  `Try::branch` is the evident case analysis (`normal ↦ Continue`,
  `divergent ↦ Break`); `Try::from_output = CF.normal`;
  `FromResidual::from_residual = CF.divergent`.
* The divergence buffer (`Rc<RefCell<VecDeque<T>>>`, shared handle) is
  modelled by an explicit `List` state threaded through every operation;
  the head of the list is the front of the queue.  Because evaluation is
  single-threaded pull-based, the shared handle is faithfully represented
  by passing the one queue state in and out of each step.
* A Rust iterator is a state plus a step function.  A finite source
  iterator is a `List` consumed from the front.  An intermediate iterator
  that may itself touch the buffer when pulled (such as `FilteredIter`, or
  a `filter` adapter over it) is an abstract state `σ` with a pull
  function `σ → List (CF O R) → Option O × σ × List (CF O R)` taking and
  returning the buffer alongside its own state.
* Loops (`for next in iter`, draining an iterator) become structural
  recursion on the source list, or recursion on an explicit fuel counter
  when the loop's termination depends on state outside the recursion;
  every theorem that uses fuel carries an explicit sufficiency bound.
-/

set_option autoImplicit false

namespace Iteritor

universe u v w

/-- A short-circuit value: either a normal payload (`Ok`/`Continue`) or a
divergent signal (`Err`/`Break`).  This is the canonical instance of the
`Try` capability the library is generic over. -/
inductive CF (O : Type u) (R : Type v) : Type (max u v) where
  | normal : O → CF O R
  | divergent : R → CF O R
  deriving DecidableEq, Repr

variable {O : Type u} {R : Type v}

/-- `true` exactly on `divergent` values (the `Break` side of `branch`). -/
def CF.isDivergent : CF O R → Bool
  | .normal _ => false
  | .divergent _ => true

/-- Payload of a normal value, if any. -/
def CF.output : CF O R → Option O
  | .normal o => some o
  | .divergent _ => none

/-- `ControlFlowBuffer::push` (buffer.rs line 25 / 88): enqueue at the tail. -/
def push (q : List (CF O R)) (v : CF O R) : List (CF O R) :=
  q ++ [v]

/-- `ControlFlowBuffer::pop` (buffer.rs line 27 / 91): dequeue the head,
returning it together with the remaining queue (`none` when empty). -/
def pop (q : List (CF O R)) : Option (CF O R) × List (CF O R) :=
  match q with
  | [] => (none, [])
  | x :: xs => (some x, xs)

/-- `ControlFlowBuffer::push_and_pop` (buffer.rs lines 32-39): pop first;
if something was pending, push the input and return the popped head,
otherwise bypass the queue and return the input unchanged. -/
def push_and_pop (q : List (CF O R)) (v : CF O R) : CF O R × List (CF O R) :=
  match pop q with
  | (some next, q1) => (next, push q1 v)
  | (none, q1) => (v, q1)

/-- Modelled from the spec (§4.1 `push_and_pop` description): "enqueue
`value` then dequeue" — the unoptimized push-then-pop composition, used
only to compare against `push_and_pop`. -/
def push_then_pop_spec (q : List (CF O R)) (v : CF O R) :
    Option (CF O R) × List (CF O R) :=
  pop (push q v)

/-- `ControlFlowBuffer::next_unwrapped` (buffer.rs lines 45-57): advance
the source; a `Continue` payload is returned at once, each `Break`
residual is converted back into an item (`from_residual`, here
`CF.divergent`) and pushed, and exhaustion of the source gives `none`.
Returns (result, final buffer, remaining source). -/
def next_unwrapped (buf : List (CF O R)) :
    List (CF O R) → Option O × List (CF O R) × List (CF O R)
  | [] => (none, buf, [])
  | x :: rest =>
    match x with
    | .normal o => (some o, buf, rest)
    | .divergent r => next_unwrapped (push buf (CF.divergent r)) rest

/-- `ControlFlowBuffer::next_wrapped` (buffer.rs lines 63-73), generic
over the upstream iterator: `pull` is the upstream's `next`, which may
itself mutate the buffer (in the pipeline it is the transformed
`FilteredIter`, sharing the same buffer handle).  Pop first and return a
pending value if any; otherwise pull exactly once, wrap the output with
`from_output` (`CF.normal`) and route it through `push_and_pop`.
Returns (result, upstream state, buffer). -/
def next_wrapped {σ : Type w}
    (pull : σ → List (CF O R) → Option O × σ × List (CF O R))
    (s : σ) (buf : List (CF O R)) :
    Option (CF O R) × σ × List (CF O R) :=
  match pop buf with
  | (some next, buf1) => (some next, s, buf1)
  | (none, buf1) =>
    match pull s buf1 with
    | (none, s1, buf2) => (none, s1, buf2)
    | (some o, s1, buf2) =>
      match push_and_pop buf2 (CF.normal o) with
      | (v, buf3) => (some v, s1, buf3)

/-- `FilteredIter::next` (filtered.rs lines 41-43) over a finite list
source: delegate to `next_unwrapped`.  State of the iterator is the
remaining source list; result components reordered to the
(output, state, buffer) convention of `next_wrapped`'s pull argument. -/
def filtered_pull (src : List (CF O R)) (buf : List (CF O R)) :
    Option O × List (CF O R) × List (CF O R) :=
  match next_unwrapped buf src with
  | (o, buf1, src1) => (o, src1, buf1)

/-- `Iterator::filter(p)` applied to a `FilteredIter` (the transformation
of the lib.rs `filtered` test): keep pulling `next_unwrapped` until the
predicate holds or the source is exhausted.  The loop is bounded by an
explicit fuel counter; each rejected pull consumes at least one source
element, so `src.length + 1` fuel always suffices. -/
def filter_pull (p : O → Bool) :
    Nat → List (CF O R) → List (CF O R) → Option O × List (CF O R) × List (CF O R)
  | 0, src, buf => (none, src, buf)
  | fuel + 1, src, buf =>
    match next_unwrapped buf src with
    | (none, buf1, src1) => (none, src1, buf1)
    | (some o, buf1, src1) =>
      if p o then (some o, src1, buf1) else filter_pull p fuel src1 buf1

/-- Repeatedly call `DefilteredIter::next` (filtered.rs lines 80-82, i.e.
`next_wrapped`), collecting every yielded value, for `fuel` calls.  This
is the exhaustive drain of the recombining iterator: it keeps calling
past an intermediate `none` (the iterator is not fused and can yield
again after an exhausted result, see `next_wrapped`). -/
def drain {σ : Type w}
    (pull : σ → List (CF O R) → Option O × σ × List (CF O R)) :
    Nat → σ → List (CF O R) → List (CF O R)
  | 0, _, _ => []
  | fuel + 1, s, buf =>
    match next_wrapped pull s buf with
    | (some v, s1, buf1) => v :: drain pull fuel s1 buf1
    | (none, s1, buf1) => drain pull fuel s1 buf1

/-- Drain of the recombining iterator by a consumer that stops at the
first exhausted result (the semantics of `collect`). -/
def drain_stop {σ : Type w}
    (pull : σ → List (CF O R) → Option O × σ × List (CF O R)) :
    Nat → σ → List (CF O R) → List (CF O R)
  | 0, _, _ => []
  | fuel + 1, s, buf =>
    match next_wrapped pull s buf with
    | (some v, s1, buf1) => v :: drain_stop pull fuel s1 buf1
    | (none, _, _) => []

/-- `with_filtered_buf` (lib.rs lines 129-141) with the identity
transformation `f = |i| i`, followed by an exhaustive drain: the
recombining iterator's upstream is the `FilteredIter` itself, both
sharing one buffer that starts empty (`Buffer::default()`); `with_filtered`
is the same entry point with the default buffer supplied. -/
def with_filtered_id_drain (fuel : Nat) (src : List (CF O R)) : List (CF O R) :=
  drain filtered_pull fuel src []

/-- `with_filtered_buf` with the transformation `|i| i.filter(p)`,
followed by an exhaustive drain. -/
def with_filtered_filter_drain (p : O → Bool) (fuel : Nat)
    (src : List (CF O R)) : List (CF O R) :=
  drain (fun s buf => filter_pull p (s.length + 1) s buf) fuel src []

/-- Drain of the filtering iterator alone (repeated `FilteredIter::next`),
stopping at the first `none`; collects the normal outputs. -/
def filtered_drain : Nat → List (CF O R) → List (CF O R) → List O
  | 0, _, _ => []
  | fuel + 1, buf, src =>
    match next_unwrapped buf src with
    | (some o, buf1, src1) => o :: filtered_drain fuel buf1 src1
    | (none, _, _) => []

/-- The sample stream used by the library's tests
(`result_samples`, filtered.rs lines 98-111). -/
def sample : List (CF Nat String) :=
  [.normal 1, .normal 2, .normal 1, .divergent "boom", .divergent "hi",
   .normal 3, .normal 1, .divergent "zoop", .normal 5]

/-- `BreakingIterator::next` (breaking.rs lines 42-56), generic over the
underlying source iterator: `pull` is `input_iter.next()` on source state
`σ`.  If the result slot already holds a residual, return `none` without
touching the source; otherwise pull once and branch: a normal payload is
yielded, a divergent residual is recorded into the slot (`replace`) and
`none` is returned.  State is (result slot, source state). -/
def breaking_nextG {σ : Type w} (pull : σ → Option (CF O R) × σ) :
    Option R × σ → Option O × (Option R × σ)
  | (some r, s) => (none, (some r, s))
  | (none, s) =>
    match pull s with
    | (none, s1) => (none, (none, s1))
    | (some x, s1) =>
      match x with
      | .normal o => (some o, (none, s1))
      | .divergent r => (none, (some r, s1))

/-- `Iterator::next` of a finite list source. -/
def list_pull : List (CF O R) → Option (CF O R) × List (CF O R)
  | [] => (none, [])
  | x :: xs => (some x, xs)

/-- `BreakingIterator::next` over a finite list source. -/
def breaking_next :
    Option R × List (CF O R) → Option O × (Option R × List (CF O R)) :=
  breaking_nextG list_pull

/-- Call `BreakingIterator::next` `n` times, collecting the results and
the final state. -/
def breaking_runG {σ : Type w} (pull : σ → Option (CF O R) × σ) :
    Nat → Option R × σ → List (Option O) × (Option R × σ)
  | 0, st => ([], st)
  | n + 1, st =>
    match breaking_nextG pull st with
    | (o, st1) =>
      match breaking_runG pull n st1 with
      | (os, st2) => (o :: os, st2)

/-- `breaking_runG` over a finite list source. -/
def breaking_run :
    Nat → Option R × List (CF O R) →
      List (Option O) × (Option R × List (CF O R)) :=
  breaking_runG list_pull

/-- An eager fold (such as `Iterator::sum` or `Iterator::fold`) driven by
the breaking iterator: keep calling `BreakingIterator::next` and folding
each yielded output with `stepf` until it returns `none`; result is the
accumulator together with the final result slot.  The branches mirror
`breaking_next`: a recorded slot or an exhausted source stops the fold, a
normal payload is folded, a divergent residual fills the slot. -/
def run_fold {A : Type w} (stepf : A → O → A) (acc : A) (slot : Option R) :
    List (CF O R) → A × Option R
  | [] => (acc, slot)
  | x :: rest =>
    match slot with
    | some r => (acc, some r)
    | none =>
      match x with
      | .normal o => run_fold stepf (stepf acc o) none rest
      | .divergent r => (acc, some r)

/-- `with_folding` (lib.rs lines 204-221) with an eager fold
`f = |i| i.fold(init, stepf)`: start with an empty result slot, run the
fold against the breaking iterator, then inspect the slot — a recorded
residual becomes the overall `from_residual` value (the fold's output is
discarded), otherwise the fold's output becomes the `from_output` value. -/
def with_folding {A : Type w} (src : List (CF O R)) (stepf : A → O → A)
    (init : A) : CF A R :=
  match run_fold stepf init none src with
  | (_, some r) => CF.divergent r
  | (a, none) => CF.normal a

/-- Residual of the first divergent element of a stream, if any
(specification function used to characterize the fold pipeline). -/
def first_break : List (CF O R) → Option R
  | [] => none
  | .normal _ :: rest => first_break rest
  | .divergent r :: _ => some r

/-- Outputs of the normal elements strictly before the first divergent
element (exactly what the breaking iterator yields before stopping). -/
def outputs_before : List (CF O R) → List O
  | [] => []
  | .normal o :: rest => o :: outputs_before rest
  | .divergent _ :: _ => []

/-- `DefilteredIter::size_hint` (filtered.rs lines 83-93) as a function of
the transformed stream's upper bound and the captured original upper
bound: `[input_high, original_max].into_iter().flatten().max()` — the
absent bounds are dropped by `flatten` and `max` of the remaining ones is
taken (`none` only when both are absent). -/
def defiltered_size_hint (input_high original_max : Option Nat) :
    Nat × Option Nat :=
  (0, (([input_high, original_max].filterMap id).max?))

/-- Modelled from the spec reading of C8: the maximum of two size
estimates where an absent estimate means unbounded, so that the maximum
of an unbounded estimate and any other estimate is unbounded.  Used only
to compare against `defiltered_size_hint`. -/
def unbounded_max : Option Nat → Option Nat → Option Nat
  | none, _ => none
  | _, none => none
  | some a, some b => some (max a b)

section Lemmas

variable {A : Type w} {σ : Type w}

/-- On an all-divergent source, `next_unwrapped` buffers everything in
order and reports exhaustion. -/
theorem next_unwrapped_all_divergent :
    ∀ (src buf : List (CF O R)), (∀ x ∈ src, x.isDivergent = true) →
      next_unwrapped buf src = (none, buf ++ src, []) := by
  intro src
  induction src with
  | nil => intro buf _; simp [next_unwrapped]
  | cons x rest ih =>
    intro buf h
    match x with
    | .normal o =>
      have : CF.isDivergent (CF.normal o : CF O R) = true := h _ (by simp)
      simp [CF.isDivergent] at this
    | .divergent r =>
      have hrest : ∀ y ∈ rest, CF.isDivergent y = true := by
        intro y hy; exact h y (by simp [hy])
      calc next_unwrapped buf (CF.divergent r :: rest)
          = next_unwrapped (push buf (CF.divergent r)) rest := rfl
        _ = (none, push buf (CF.divergent r) ++ rest, []) := ih _ hrest
        _ = (none, buf ++ CF.divergent r :: rest, []) := by simp [push]

/-- When the source starts with a run of divergent values followed by a
normal one, `next_unwrapped` buffers the run in order and yields the
normal payload, leaving the rest of the source untouched. -/
theorem next_unwrapped_finds_normal :
    ∀ (divs : List (CF O R)), (∀ x ∈ divs, x.isDivergent = true) →
      ∀ (buf : List (CF O R)) (o : O) (rest : List (CF O R)),
        next_unwrapped buf (divs ++ CF.normal o :: rest) =
          (some o, buf ++ divs, rest) := by
  intro divs
  induction divs with
  | nil => intro _ buf o rest; simp [next_unwrapped]
  | cons d ds ih =>
    intro h buf o rest
    match d with
    | .normal o2 =>
      have : CF.isDivergent (CF.normal o2 : CF O R) = true := h _ (by simp)
      simp [CF.isDivergent] at this
    | .divergent r =>
      have hds : ∀ y ∈ ds, CF.isDivergent y = true := by
        intro y hy; exact h y (by simp [hy])
      calc next_unwrapped buf ((CF.divergent r :: ds) ++ CF.normal o :: rest)
          = next_unwrapped (push buf (CF.divergent r)) (ds ++ CF.normal o :: rest) := rfl
        _ = (some o, push buf (CF.divergent r) ++ ds, rest) := ih hds _ o rest
        _ = (some o, buf ++ CF.divergent r :: ds, rest) := by simp [push]

/-- Any stream is either all divergent or a divergent run followed by a
first normal element and a remainder. -/
theorem divergent_split :
    ∀ src : List (CF O R), (∀ x ∈ src, x.isDivergent = true) ∨
      ∃ divs o rest, src = divs ++ CF.normal o :: rest ∧
        ∀ x ∈ divs, x.isDivergent = true := by
  intro src
  induction src with
  | nil => exact Or.inl (by simp)
  | cons x rest ih =>
    match x with
    | .normal o =>
      exact Or.inr ⟨[], o, rest, by simp⟩
    | .divergent r =>
      rcases ih with hall | ⟨divs, o, tl, heq, hdivs⟩
      · refine Or.inl ?_
        intro y hy
        rcases List.mem_cons.mp hy with h1 | h2
        · simp [h1, CF.isDivergent]
        · exact hall y h2
      · refine Or.inr ⟨CF.divergent r :: divs, o, tl, by simp [heq], ?_⟩
        intro y hy
        rcases List.mem_cons.mp hy with h1 | h2
        · simp [h1, CF.isDivergent]
        · exact hdivs y h2

/-- `next_unwrapped` reports exhaustion exactly when the remaining source
contains no normal value. -/
theorem next_unwrapped_none_iff (buf src : List (CF O R)) :
    (next_unwrapped buf src).1 = none ↔ ∀ x ∈ src, x.isDivergent = true := by
  constructor
  · intro hnone
    rcases divergent_split src with hall | ⟨divs, o, rest, heq, hdivs⟩
    · exact hall
    · rw [heq, next_unwrapped_finds_normal divs hdivs buf o rest] at hnone
      simp at hnone
  · intro hall
    rw [next_unwrapped_all_divergent src buf hall]

/-- Exhaustively draining the identity pipeline from any reachable state
yields the pending buffer followed by the remaining source, given enough
fuel.  The measure `buf.length + 2 * src.length` drops at every
productive step. -/
theorem drain_id_eq :
    ∀ (n : Nat) (buf src : List (CF O R)),
      buf.length + 2 * src.length ≤ n →
      drain filtered_pull n src buf = buf ++ src := by
  intro n
  induction n with
  | zero =>
    intro buf src h
    have hb : buf = [] := by
      cases buf with
      | nil => rfl
      | cons b bs => simp at h
    have hs : src = [] := by
      cases src with
      | nil => rfl
      | cons s ss => simp at h
    simp [hb, hs, drain]
  | succ n ih =>
    intro buf src h
    cases buf with
    | cons b bs =>
      have step : next_wrapped (filtered_pull (O := O) (R := R)) src (b :: bs) =
          (some b, src, bs) := rfl
      have ihb : drain filtered_pull n src bs = bs ++ src := by
        apply ih
        simp at h ⊢; omega
      simp [drain, step, ihb]
    | nil =>
      rcases divergent_split src with hall | ⟨divs, o, rest, heq, hdivs⟩
      · have hnu : next_unwrapped ([] : List (CF O R)) src = (none, src, []) := by
          simpa using next_unwrapped_all_divergent src [] hall
        have step : next_wrapped (filtered_pull (O := O) (R := R)) src [] =
            (none, [], src) := by
          simp [next_wrapped, pop, filtered_pull, hnu]
        have ihs : drain filtered_pull n ([] : List (CF O R)) src = src ++ [] := by
          apply ih
          simp at h ⊢; omega
        simp [drain, step, ihs]
      · have hnu : next_unwrapped ([] : List (CF O R)) src = (some o, divs, rest) := by
          simpa [heq] using next_unwrapped_finds_normal divs hdivs [] o rest
        cases divs with
        | nil =>
          have step : next_wrapped (filtered_pull (O := O) (R := R)) src [] =
              (some (CF.normal o), rest, []) := by
            simp [next_wrapped, pop, filtered_pull, hnu, push_and_pop]
          have ihr : drain filtered_pull n rest ([] : List (CF O R)) = rest := by
            simpa using ih [] rest (by rw [heq] at h; simp at h ⊢; omega)
          simp only [drain, step, ihr]
          rw [heq]; simp
        | cons d ds =>
          have step : next_wrapped (filtered_pull (O := O) (R := R)) src [] =
              (some d, rest, ds ++ [CF.normal o]) := by
            simp [next_wrapped, pop, filtered_pull, hnu, push_and_pop, push]
          have ihd : drain filtered_pull n rest (ds ++ [CF.normal o]) =
              (ds ++ [CF.normal o]) ++ rest := by
            apply ih
            rw [heq] at h; simp at h ⊢; omega
          simp only [drain, step, ihd]
          rw [heq]; simp

/-- `run_fold` is the fold loop over `BreakingIterator::next`: one step of
the loop agrees with one call of `breaking_next`. -/
theorem run_fold_step (stepf : A → O → A) (acc : A) (slot : Option R)
    (src : List (CF O R)) :
    run_fold stepf acc slot src =
      match breaking_next (slot, src) with
      | (some o, (sl, sr)) => run_fold stepf (stepf acc o) sl sr
      | (none, (sl, _)) => (acc, sl) := by
  match slot, src with
  | some r, [] => rfl
  | some r, x :: rest => rfl
  | none, [] => rfl
  | none, CF.normal o :: rest => rfl
  | none, CF.divergent r :: rest => rfl

/-- Running an eager fold against the breaking iterator folds exactly the
outputs before the first divergence, and the final result slot holds the
first divergent residual, if any. -/
theorem run_fold_eq (stepf : A → O → A) :
    ∀ (src : List (CF O R)) (acc : A),
      run_fold stepf acc none src =
        (List.foldl stepf acc (outputs_before src), first_break src) := by
  intro src
  induction src with
  | nil => intro acc; rfl
  | cons x rest ih =>
    intro acc
    match x with
    | .normal o => simpa [run_fold, outputs_before, first_break] using ih (stepf acc o)
    | .divergent r => simp [run_fold, outputs_before, first_break]

/-- Once the result slot holds a residual, any number of further calls of
`BreakingIterator::next` yield only `none` and leave the whole state —
slot and source — untouched, for an arbitrary source pull function. -/
theorem breaking_runG_stable {σ : Type w} (pull : σ → Option (CF O R) × σ) :
    ∀ (n : Nat) (r : R) (s : σ),
      breaking_runG pull n (some r, s) = (List.replicate n none, (some r, s)) := by
  intro n
  induction n with
  | zero => intro r s; rfl
  | succ n ih =>
    intro r s
    simp [breaking_runG, breaking_nextG, ih, List.replicate_succ]

end Lemmas

section Claims

/-- Claim C1: for every finite stream S of short-circuit values, running
the filter-recombine pipeline (`with_filtered` / `with_filtered_buf`)
with the identity transformation and fully draining the returned iterator
— collecting every value it ever yields, until source and buffer are both
exhausted, for which `2 * S.length` calls always suffice — reproduces S
unchanged, element for element, in the same order. -/
theorem c1_identity_round_trip (S : List (CF O R)) (fuel : Nat)
    (h : 2 * S.length ≤ fuel) : with_filtered_id_drain fuel S = S := by
  simpa [with_filtered_id_drain] using drain_id_eq fuel [] S (by simpa using h)

/-- Witness for C1 at the library's sample stream. -/
theorem c1_identity_round_trip_witness :
    2 * sample.length ≤ 18 ∧ with_filtered_id_drain 18 sample = sample :=
  ⟨by decide, c1_identity_round_trip sample 18 (by decide)⟩

/-- Claim C2: on the sample stream, the filtering iterator yields exactly
the outputs [1, 2, 1, 3, 1, 5], and the filter-recombine pipeline with
the keep-outputs-greater-than-2 transformation yields exactly
[Divergent "boom", Divergent "hi", Normal 3, Divergent "zoop", Normal 5]. -/
theorem c2_sample_order_preservation :
    filtered_drain 10 [] sample = [1, 2, 1, 3, 1, 5] ∧
    with_filtered_filter_drain (fun n => decide (2 < n)) 20 sample =
      [.divergent "boom", .divergent "hi", .normal 3, .divergent "zoop",
       .normal 5] :=
  ⟨by decide, by decide⟩

/-- Claim C3: `with_folding` (with an arbitrary eager fold `f` given by
`init` and `stepf`) returns the Divergent value built from the residual
recorded in the result slot — which is the first divergent residual of
the source — discarding the fold's own result, and otherwise the Normal
value built from the fold's result; in particular summing the sample
stream yields Divergent "boom", the first divergent element, not a later
one and not a partial sum. -/
theorem c3_fold_short_circuits :
    (∀ (O : Type u) (R : Type v) (A : Type w) (src : List (CF O R))
        (stepf : A → O → A) (init : A),
        with_folding src stepf init =
          match first_break src with
          | some r => CF.divergent r
          | none => CF.normal (List.foldl stepf init (outputs_before src))) ∧
    (∀ (O : Type u) (R : Type v) (A : Type w) (src : List (CF O R))
        (stepf : A → O → A) (init : A),
        (run_fold stepf init none src).2 = first_break src) ∧
    with_folding sample Nat.add 0 = CF.divergent "boom" := by
  refine ⟨?_, ?_, by decide⟩
  · intro O R A src stepf init
    simp only [with_folding, run_fold_eq]
    cases h : first_break src <;> simp [h]
  · intro O R A src stepf init
    simp [run_fold_eq]

/-- Claim C4: `next_wrapped` returns a pending buffered value first,
without pulling the upstream (it holds for every pull function, with the
upstream state unchanged); with an empty buffer it pulls exactly once:
upstream exhaustion is propagated, and otherwise the pulled output is
wrapped with `from_output` and routed through `push_and_pop`, so that
divergent values buffered during that very pull are released before the
new value, which goes to the back of the queue. -/
theorem c4_next_wrapped_spec :
    (∀ (σ : Type w) (pull : σ → List (CF O R) → Option O × σ × List (CF O R))
        (s : σ) (x : CF O R) (rest : List (CF O R)),
        next_wrapped pull s (x :: rest) = (some x, s, rest)) ∧
    (∀ (σ : Type w) (pull : σ → List (CF O R) → Option O × σ × List (CF O R))
        (s s1 : σ) (buf1 : List (CF O R)), pull s [] = (none, s1, buf1) →
        next_wrapped pull s [] = (none, s1, buf1)) ∧
    (∀ (σ : Type w) (pull : σ → List (CF O R) → Option O × σ × List (CF O R))
        (s s1 : σ) (o : O), pull s [] = (some o, s1, []) →
        next_wrapped pull s [] = (some (CF.normal o), s1, [])) ∧
    (∀ (σ : Type w) (pull : σ → List (CF O R) → Option O × σ × List (CF O R))
        (s s1 : σ) (o : O) (d : CF O R) (ds : List (CF O R)),
        pull s [] = (some o, s1, d :: ds) →
        next_wrapped pull s [] = (some d, s1, ds ++ [CF.normal o])) := by
  refine ⟨?_, ?_, ?_, ?_⟩
  · intro σ pull s x rest; rfl
  · intro σ pull s s1 buf1 h; simp [next_wrapped, pop, h]
  · intro σ pull s s1 o h; simp [next_wrapped, pop, h, push_and_pop, push]
  · intro σ pull s s1 o d ds h
    simp [next_wrapped, pop, h, push_and_pop, push]

/-- A concrete pull for the C4 witness: it buffers one divergent value
while yielding the output 7. -/
def w4_pull : Unit → List (CF Nat String) →
    Option Nat × Unit × List (CF Nat String) :=
  fun _ _ => (some 7, (), [CF.divergent "e"])

/-- Witness for C4: the buffered divergent value is released first and
the wrapped output is queued behind it. -/
theorem c4_next_wrapped_spec_witness :
    w4_pull () [] = (some 7, (), [CF.divergent "e"]) ∧
    next_wrapped w4_pull () [] =
      (some (CF.divergent "e"), (), [] ++ [CF.normal 7]) :=
  ⟨rfl, c4_next_wrapped_spec.2.2.2 Unit w4_pull () () 7
    (CF.divergent "e") [] rfl⟩

/-- Claim C5: `push_and_pop` is extensionally the push-then-pop
composition described by the spec: on a non-empty queue it returns the
previous head and leaves the new value queued behind everything else; on
an empty queue it returns its argument unchanged and leaves the queue
empty. -/
theorem c5_push_and_pop_refines :
    (∀ (q : List (CF O R)) (v : CF O R),
        (some (push_and_pop q v).1, (push_and_pop q v).2) =
          push_then_pop_spec q v) ∧
    (∀ (x : CF O R) (xs : List (CF O R)) (v : CF O R),
        push_and_pop (x :: xs) v = (x, xs ++ [v])) ∧
    (∀ v : CF O R, push_and_pop [] v = (v, [])) := by
  refine ⟨?_, ?_, ?_⟩
  · intro q v
    cases q <;> simp [push_and_pop, push_then_pop_spec, pop, push]
  · intro x xs v; rfl
  · intro v; rfl

/-- Claim C6: `next_unwrapped` yields the output of the first Normal
value of the source, having enqueued every Divergent value before it in
source order, and reports exhaustion exactly when the source runs out
without a Normal value (in which case the whole source was enqueued). -/
theorem c6_next_unwrapped_spec :
    (∀ (buf divs : List (CF O R)) (o : O) (rest : List (CF O R)),
        (∀ x ∈ divs, x.isDivergent = true) →
        next_unwrapped buf (divs ++ CF.normal o :: rest) =
          (some o, buf ++ divs, rest)) ∧
    (∀ buf src : List (CF O R), (∀ x ∈ src, x.isDivergent = true) →
        next_unwrapped buf src = (none, buf ++ src, [])) ∧
    (∀ buf src : List (CF O R),
        (next_unwrapped buf src).1 = none ↔
          ∀ x ∈ src, x.isDivergent = true) := by
  refine ⟨?_, ?_, ?_⟩
  · intro buf divs o rest h
    exact next_unwrapped_finds_normal divs h buf o rest
  · intro buf src h
    exact next_unwrapped_all_divergent src buf h
  · intro buf src
    exact next_unwrapped_none_iff buf src

/-- Witness for C6: a divergent run of length one before the first
normal value. -/
theorem c6_next_unwrapped_spec_witness :
    (∀ x ∈ ([CF.divergent "a"] : List (CF Nat String)),
        x.isDivergent = true) ∧
    next_unwrapped [] ([CF.divergent "a"] ++ CF.normal 1 :: []) =
      (some 1, [] ++ [CF.divergent "a"], ([] : List (CF Nat String))) :=
  ⟨by decide, c6_next_unwrapped_spec.1 [] [CF.divergent "a"] 1 [] (by decide)⟩

/-- Claim C7: once the breaking iterator has recorded a residual, every
subsequent `next()` call returns exhausted and the slot never changes;
the slot is written only with a divergent residual, only by the call that
encounters that divergent element (a normal element leaves it empty), and
once written it is never written again. -/
theorem c7_breaking_slot_invariant :
    (∀ (r : R) (src : List (CF O R)) (n : Nat),
        breaking_run n (some r, src) =
          ((List.replicate n (none : Option O)), (some r, src))) ∧
    (∀ (src : List (CF O R)) (o : Option O) (r : R) (src1 : List (CF O R)),
        breaking_next (none, src) = (o, (some r, src1)) →
        src = CF.divergent r :: src1 ∧ o = none) ∧
    (∀ (o : O) (rest : List (CF O R)),
        breaking_next (none, CF.normal o :: rest) = (some o, (none, rest))) := by
  refine ⟨?_, ?_, ?_⟩
  · intro r src n
    exact breaking_runG_stable list_pull n r src
  · intro src o r src1 h
    match src with
    | [] =>
      have h' : ((none : Option O), ((none : Option R), ([] : List (CF O R)))) =
          (o, (some r, src1)) := h
      injection h' with h1 h2
      injection h2 with h3 h4
      exact absurd h3.symm (by simp)
    | CF.normal o2 :: rest =>
      have h' : (some o2, ((none : Option R), rest)) = (o, (some r, src1)) := h
      injection h' with h1 h2
      injection h2 with h3 h4
      exact absurd h3.symm (by simp)
    | CF.divergent r2 :: rest =>
      have h' : ((none : Option O), (some r2, rest)) = (o, (some r, src1)) := h
      injection h' with h1 h2
      injection h2 with h3 h4
      injection h3 with h5
      subst h1; subst h4; subst h5
      exact ⟨rfl, rfl⟩
  · intro o rest; rfl

/-- Witness for C7 at a single-element divergent source. -/
theorem c7_breaking_slot_invariant_witness :
    breaking_next ((none : Option String), [CF.divergent "b"]) =
      ((none : Option Nat), (some "b", [])) ∧
    ([CF.divergent "b"] = CF.divergent "b" :: ([] : List (CF Nat String)) ∧
      (none : Option Nat) = none) :=
  ⟨rfl, c7_breaking_slot_invariant.2.1 [CF.divergent "b"] none "b" [] rfl⟩

/-- Claim C8 counterexample: with an unbounded transformed stream (upper
bound absent) and a captured original bound of 0, the code returns upper
bound 0, not an absent (unbounded) estimate as the claim's reading of
"maximum" would require. -/
theorem c8_size_hint_counterexample :
    defiltered_size_hint none (some 0) ≠ (0, unbounded_max none (some 0)) := by
  decide

/-- Claim C8 as amended: `size_hint` returns lower bound 0 and an upper
bound that is the maximum of the estimates that are present among the
transformed stream's upper bound and the captured original upper bound;
an absent estimate is ignored (dropped by `flatten`), so the result is
absent only when both are absent. -/
theorem c8_size_hint_amended :
    ∀ a b : Option Nat,
      defiltered_size_hint a b =
        (0, match a, b with
            | none, none => none
            | some x, none => some x
            | none, some y => some y
            | some x, some y => some (max x y)) := by
  intro a b
  cases a <;> cases b <;> rfl

/-- Claim C9: when the pull on the transformed stream reports exhaustion
while having buffered divergent values during that same pull, the
recombining iterator's `next()` returns exhausted even though the buffer
is now non-empty; those buffered values are yielded only by later calls,
so a consumer stopping at the first exhausted result never observes them
(concretely: for the source [Divergent "x"] with the identity
transformation, a stop-at-none drain yields nothing while the exhaustive
drain yields the divergent value). -/
theorem c9_exhausted_with_pending_buffer :
    (∀ (σ : Type w) (pull : σ → List (CF O R) → Option O × σ × List (CF O R))
        (s s1 : σ) (buf1 : List (CF O R)), pull s [] = (none, s1, buf1) →
        next_wrapped pull s [] = (none, s1, buf1)) ∧
    (∀ (σ : Type w) (pull : σ → List (CF O R) → Option O × σ × List (CF O R))
        (s : σ) (d : CF O R) (ds : List (CF O R)),
        next_wrapped pull s (d :: ds) = (some d, s, ds)) ∧
    (drain_stop filtered_pull 5 ([CF.divergent "x"] : List (CF Nat String)) [] =
        [] ∧
      drain filtered_pull 5 ([CF.divergent "x"] : List (CF Nat String)) [] =
        [CF.divergent "x"]) := by
  refine ⟨?_, ?_, by decide, by decide⟩
  · intro σ pull s s1 buf1 h; simp [next_wrapped, pop, h]
  · intro σ pull s d ds; rfl

/-- A concrete pull for the C9 witness: it reports exhaustion while
leaving one divergent value buffered. -/
def w9_pull : Unit → List (CF Nat String) →
    Option Nat × Unit × List (CF Nat String) :=
  fun _ _ => (none, (), [CF.divergent "q"])

/-- Witness for C9: next returns exhausted although the buffer is left
non-empty. -/
theorem c9_exhausted_with_pending_buffer_witness :
    w9_pull () [] = (none, (), [CF.divergent "q"]) ∧
    next_wrapped w9_pull () [] = (none, (), [CF.divergent "q"]) :=
  ⟨rfl, c9_exhausted_with_pending_buffer.1 Unit w9_pull () ()
    [CF.divergent "q"] rfl⟩

/-- Claim C10: after the breaking iterator records a residual, every
subsequent `next()` call returns exhausted without pulling the source at
all — the statement holds for an arbitrary pull function and leaves the
source state untouched, so no pull can have occurred — and the recording
call itself leaves the source exactly one element past the divergence. -/
theorem c10_breaking_frame :
    (∀ (σ : Type w) (pull : σ → Option (CF O R) × σ) (n : Nat) (r : R) (s : σ),
        breaking_runG pull n ((some r : Option R), s) =
          ((List.replicate n (none : Option O)), (some r, s))) ∧
    (∀ (σ : Type w) (pull : σ → Option (CF O R) × σ) (s s1 : σ) (r : R),
        pull s = (some (CF.divergent r), s1) →
        breaking_nextG pull ((none : Option R), s) =
          ((none : Option O), (some r, s1))) := by
  refine ⟨?_, ?_⟩
  · intro σ pull n r s
    exact breaking_runG_stable pull n r s
  · intro σ pull s s1 r h
    simp [breaking_nextG, h]

/-- Witness for C10: a counting source whose pull yields a divergent
value and advances its state. -/
theorem c10_breaking_frame_witness :
    (fun (k : Nat) => ((some (CF.divergent "z") : Option (CF Nat String)), k + 1)) 3 =
      (some (CF.divergent "z"), 4) ∧
    breaking_nextG
      (fun (k : Nat) => ((some (CF.divergent "z") : Option (CF Nat String)), k + 1))
      ((none : Option String), 3) = ((none : Option Nat), (some "z", 4)) :=
  ⟨rfl, c10_breaking_frame.2 Nat
    (fun k => (some (CF.divergent "z"), k + 1)) 3 4 "z" rfl⟩

end Claims

end Iteritor
